import Mathlib

/-!
Shallow embedding of the arXiv listing-page spider
(`daily_arxiv/daily_arxiv/spiders/arxiv.py`).

The spider walks the alternating `h3`/`dl` structure under `#dlpage`,
classifies sections, extracts one candidate record per `dt`/`dd` pair,
deduplicates identifiers across the whole run through a shared mutable
set, and finally applies three sequential stable sorts per page.

Modelling conventions:
* Python strings are modelled as Lean `String`/`List Char`; ASCII
  behaviour of `str.lower`/`str.strip` is modelled (the inputs of
  interest are ASCII).
* The Python `set` of seen identifiers is modelled as a `List String`
  used only through membership; insertion is `cons`.
* `set(...)`/`list(...)` on extracted category codes is modelled by
  `List.dedup`, a canonical representative of the unordered set.
* URL resolution (`response.urljoin`) is a library call outside the core; it is
  passed in as an explicit function parameter `uj`.
* Python `list.sort` is stable; it is modelled by `List.insertionSort`,
  which is stable as well (`List.pair_sublist_insertionSort`), so the
  two agree on every input.  `sort(key=..., reverse=True)` keeps equal
  elements in their original order, which matches a stable sort with
  the reversed comparison.
* Python compares strings lexicographically by code point; this is
  embedded directly as `pyCharsLe`.
-/

/-- Python whitespace (ASCII part), as stripped by `str.strip()`. -/
def isPySpace (c : Char) : Bool :=
  c = ' ' || c = '\t' || c = '\n' || c = '\r' || c = '\x0b' || c = '\x0c'

/-- Does `hay` start with `needle`?  (List version of string comparison.) -/
def listStartsWith : List Char → List Char → Bool
  | [], _ => true
  | _ :: _, [] => false
  | a :: as, b :: bs => a = b && listStartsWith as bs

/-- Python `needle in hay` for strings: contiguous-substring test. -/
def containsSub (needle : List Char) : List Char → Bool
  | [] => listStartsWith needle []
  | c :: t => listStartsWith needle (c :: t) || containsSub needle t

/-- Python `str.strip()` (ASCII whitespace). -/
def pyStrip (s : String) : String :=
  String.mk (((s.data.dropWhile isPySpace).reverse.dropWhile isPySpace).reverse)

/-- Python truthiness test for an optional string: `None` and `""` are falsy. -/
def pyFalsy : Option String → Bool
  | none => true
  | some s => s.isEmpty

/-- Python string comparison `a <= b`: lexicographic by code point. -/
def pyCharsLe : List Char → List Char → Bool
  | [], _ => true
  | _ :: _, [] => false
  | a :: as, b :: bs =>
    if a.toNat < b.toNat then true
    else if b.toNat < a.toNat then false
    else pyCharsLe as bs

/-- Python `a <= b` on strings. -/
def pyStrLe (a b : String) : Bool := pyCharsLe a.data b.data

/-- An `<a>` element inside a `dt`, with its `title` and `href` attributes. -/
structure Anchor where
  title : Option String
  href : Option String
deriving DecidableEq

/-- One top-level child of `#dlpage` selected by the spider's xpath:
either an `h3` heading (its text fragments) or a `dl` block
(the lists of `dt` anchor sets and `dd` subject text fragments). -/
inductive Element where
  | h3 (texts : List String)
  | dl (dts : List (List Anchor)) (dds : List (List String))
deriving DecidableEq

/-- Is the element a heading? -/
def isHeading : Element → Bool
  | Element.h3 _ => true
  | Element.dl _ _ => false

/-- A candidate record, including the transient sort keys
`cat_priority` and `section_rank` (lines 117-127 of the source). -/
structure Item where
  id : String
  abs : String
  pdf : String
  categories : List String
  cat_priority : Nat
  section_rank : Nat
deriving DecidableEq

/-- The final emitted record, after the transient keys are popped. -/
structure Record where
  id : String
  abs : String
  pdf : String
  categories : List String
deriving DecidableEq

/-- Strip the transient sort keys (lines 137-140 of the source). -/
def finalize (it : Item) : Record :=
  { id := it.id, abs := it.abs, pdf := it.pdf, categories := it.categories }

/-- The spider's `CAT_PRIORITY` dict lookup with default 99
(lines 24-27 and 50 of the source).  The dict is a fixed literal,
independent of the requested category list. -/
def CAT_PRIORITY (c : String) : Nat :=
  if c = "math.QA" then 0 else if c = "math.RT" then 1 else 99

/-- One attempt of the regex `/list/([^/]+)/new` at the head of the text:
literal `/list/`, then a maximal nonempty run of non-`/` characters,
then literal `/new`.  (The fixed-shape pattern allows no backtracking.) -/
def tryListCat (l : List Char) : Option (List Char) :=
  if listStartsWith ("/list/").data l then
    let rest := l.drop 6
    let run := rest.takeWhile (fun ch => ch ≠ '/')
    if run.isEmpty then none
    else if listStartsWith ("/new").data (rest.drop run.length) then some run
    else none
  else none

/-- `re.search(r"/list/([^/]+)/new", url)`: leftmost match of the group. -/
def extractListCat : List Char → Option (List Char)
  | [] => none
  | c :: t =>
    match tryListCat (c :: t) with
    | some cat => some cat
    | none => extractListCat t

/-- The source-category token of a page URL (line 48-49 of the source):
the regex group if it matches, else the empty token. -/
def sourceCatOf (url : String) : String :=
  ((extractListCat url.data).map String.mk).getD ("")

/-- First `href` among anchors matching `p` that actually carry an `href`
(Scrapy's `::attr(href)` yields nothing for an anchor without `href`,
and `.get()` takes the first result). -/
def firstHref (p : Anchor → Bool) : List Anchor → Option String
  | [] => none
  | a :: t =>
    if p a then
      match a.href with
      | some h => some h
      | none => firstHref p t
    else firstHref p t

/-- The abstract-link extraction of lines 82-86: primary matcher
`a[title='Abstract']`, falsy fallback to `a[href*='/abs/']`, and the
final falsy check before `continue`. -/
def getAbsHref (dt : List Anchor) : Option String :=
  let h1 := firstHref (fun a => a.title = some ("Abstract")) dt
  let h2 :=
    if pyFalsy h1 then
      firstHref
        (fun a =>
          match a.href with
          | some h => containsSub ("/abs/").data h.data
          | none => false) dt
    else h1
  if pyFalsy h2 then none else h2

/-- Match exactly `n` decimal digits at the head; return them and the rest. -/
def takeDigits : Nat → List Char → Option (List Char × List Char)
  | 0, l => some ([], l)
  | _ + 1, [] => none
  | n + 1, c :: t =>
    if c.isDigit then (takeDigits n t).map (fun p => (c :: p.1, p.2))
    else none

/-- One attempt of the regex `/abs/([0-9]{4}\.[0-9]{5})` at the head of
the text.  The quantifiers are fixed-width, so the attempt is a
deterministic check at the front. -/
def tryIdAt (l : List Char) : Option (List Char) :=
  if listStartsWith ("/abs/").data l then
    match takeDigits 4 (l.drop 5) with
    | some (d4, c :: r1) =>
      if c = '.' then
        match takeDigits 5 r1 with
        | some (d5, _) => some (d4 ++ '.' :: d5)
        | none => none
      else none
    | _ => none
  else none

/-- `re.search(r"/abs/([0-9]{4}\.[0-9]{5})", url)` (line 91):
leftmost match of the capture group. -/
def extractId : List Char → Option (List Char)
  | [] => none
  | c :: t =>
    match tryIdAt (c :: t) with
    | some i => some i
    | none => extractId t

/-- Character class `[a-z\-]` of the subject-code regex. -/
def isCodeLower (c : Char) : Bool :=
  ('a' ≤ c && c ≤ 'z') || c = '-'

/-- Character class `[A-Z]` of the subject-code regex. -/
def isCodeUpper (c : Char) : Bool :=
  'A' ≤ c && c ≤ 'Z'

/-- `re.findall(r"\(([a-z\-]+\.[A-Z]{2})\)", text)` (lines 106-107):
scan left to right; at a `(` try `[a-z\-]+` (greedy, and since the
following `\.` can never match a `[a-z\-]` character, backtracking is
vacuous), then `.`, two uppercase letters and `)`; on success emit the
group and continue after the match, on failure continue at the next
position.  The first argument counts characters still to be skipped
before scanning resumes (the tail of a successful match), which keeps
the recursion structural. -/
def findCodesAux : Nat → List Char → List (List Char)
  | _, [] => []
  | k + 1, _ :: t => findCodesAux k t
  | 0, c :: t =>
    if c = '(' then
      if (t.takeWhile isCodeLower).isEmpty then findCodesAux 0 t
      else
        match t.dropWhile isCodeLower with
        | d :: u :: v :: w :: _ =>
          if d = '.' && isCodeUpper u && isCodeUpper v && w = ')' then
            (t.takeWhile isCodeLower ++ d :: u :: v :: []) ::
              findCodesAux ((t.takeWhile isCodeLower).length + 4) t
          else findCodesAux 0 t
        | _ => findCodesAux 0 t
    else findCodesAux 0 t

/-- `re.findall` of the subject-code regex over the whole text. -/
def findCodes (l : List Char) : List (List Char) := findCodesAux 0 l

/-- One attempt of the subject-code regex at the head of the text,
returning the captured group and the rest of the text after the match.
Mirrors the branch structure of `findCodesAux 0`. -/
def matchCode (l : List Char) : Option (List Char × List Char) :=
  match l with
  | [] => none
  | c :: t =>
    if c = '(' then
      if (t.takeWhile isCodeLower).isEmpty then none
      else
        match t.dropWhile isCodeLower with
        | d :: u :: v :: w :: r =>
          if d = '.' && isCodeUpper u && isCodeUpper v && w = ')' then
            some (t.takeWhile isCodeLower ++ d :: u :: v :: [], r)
          else none
        | _ => none
    else none

/-- A string of the exact shape captured by the subject-code group:
a nonempty run of `[a-z\-]`, a dot, and exactly two uppercase letters. -/
def wellFormedCode (c : List Char) : Bool :=
  !(c.takeWhile isCodeLower).isEmpty &&
    match c.dropWhile isCodeLower with
    | d :: u :: v :: [] => d = '.' && isCodeUpper u && isCodeUpper v
    | _ => false

/-- Line 102-103: `" ".join(t.strip() for t in subj_parts if t.strip())`. -/
def subjectsText (parts : List String) : String :=
  String.intercalate (" ") ((parts.map pyStrip).filter (fun t => !t.isEmpty))

/-- The warning text of lines 112-115. -/
def warnMsg (arxivId sourceCat : String) : String :=
  ("Could not extract categories for paper ") ++ arxivId ++
    (", source page = ") ++ sourceCat

/-- Python `str.replace(old, new)` for a nonempty `old = n0 :: nrest`:
replace every non-overlapping occurrence, scanning left to right.  The
`Nat` argument counts characters of a matched occurrence still to be
consumed before scanning resumes. -/
def replaceAllAux (n0 : Char) (nrest repl : List Char) : Nat → List Char → List Char
  | _, [] => []
  | k + 1, _ :: t => replaceAllAux n0 nrest repl k t
  | 0, c :: t =>
    if listStartsWith (n0 :: nrest) (c :: t) then
      repl ++ replaceAllAux n0 nrest repl nrest.length t
    else
      c :: replaceAllAux n0 nrest repl 0 t

/-- Replace every occurrence of `n0 :: nrest` by `repl`. -/
def replaceAllCore (n0 : Char) (nrest repl : List Char) (l : List Char) :
    List Char :=
  replaceAllAux n0 nrest repl 0 l

/-- Python `str.replace`: all occurrences are replaced (line 121 uses
`abs_url.replace("/abs/", "/pdf/")`).  An empty pattern interleaves the
replacement around every character, as in Python. -/
def pyReplace (s pat repl : String) : String :=
  match pat.data with
  | [] => String.mk (repl.data ++ s.data.flatMap (fun c => c :: repl.data))
  | n0 :: nrest => String.mk (replaceAllCore n0 nrest repl.data s.data)

/-- Replace only the first occurrence, leaving the rest of the string
unchanged.  Modelled from the spec: "`pdf` equals `abs` with the first
`/abs/` replaced by `/pdf/`, and nothing else changed" — stated for
comparison with the source's replace-all behaviour. -/
def replaceFirstCore (n0 : Char) (nrest repl : List Char) : List Char → List Char
  | [] => []
  | c :: t =>
    if listStartsWith (n0 :: nrest) (c :: t) then
      repl ++ t.drop nrest.length
    else
      c :: replaceFirstCore n0 nrest repl t

/-- Replace the first occurrence of `pat` in `s` by `repl`
(spec-side definition; see `replaceFirstCore`). -/
def replaceFirstSpec (s pat repl : String) : String :=
  match pat.data with
  | [] => s
  | n0 :: nrest => String.mk (replaceFirstCore n0 nrest repl.data s.data)

/-- Heading classification of lines 62-70:
`"".join(texts).strip().lower()`, then case-insensitive substring
checks in priority order. -/
def classifyHeading (texts : List String) : Nat :=
  let heading := (pyStrip (String.join texts)).data.map Char.toLower
  if containsSub ("new submission").data heading then 0
  else if containsSub ("cross submission").data heading then 1
  else if containsSub ("replacement").data heading then 2
  else 3

/-- Lines 80-127: process one `dt`/`dd` pair.  Returns the optional
candidate record, the warnings logged, and the updated seen set. -/
def processEntry (uj : String → String → String) (pageUrl sourceCat : String)
    (catp rank : Nat) (seen : List String) (dt : List Anchor)
    (dd : List String) : Option Item × List String × List String :=
  match getAbsHref dt with
  | none => (none, [], seen)
  | some href =>
    let absUrl := uj pageUrl href
    match extractId absUrl.data with
    | none => (none, [], seen)
    | some idChars =>
      let arxivId := String.mk idChars
      if arxivId ∈ seen then (none, [], seen)
      else
        let text := subjectsText dd
        let cats := ((findCodes text.data).map String.mk).dedup
        let warns := if text = "" then [warnMsg arxivId sourceCat] else []
        (some { id := arxivId, abs := absUrl,
                pdf := pyReplace absUrl ("/abs/") ("/pdf/"),
                categories := cats, cat_priority := catp,
                section_rank := rank },
          warns, arxivId :: seen)

/-- Line 80: `for paper_dt, paper_dd in zip(dts, dds)` over one block. -/
def processPairs (uj : String → String → String) (pageUrl sourceCat : String)
    (catp rank : Nat) :
    List (List Anchor × List String) → List String →
      List Item × List String × List String
  | [], seen => ([], [], seen)
  | (dt, dd) :: rest, seen =>
    let r := processEntry uj pageUrl sourceCat catp rank seen dt dd
    let rs := processPairs uj pageUrl sourceCat catp rank rest r.2.2
    (r.1.toList ++ rs.1, r.2.1 ++ rs.2.1, rs.2.2)

/-- Lines 57-127: walk the alternating `h3`/`dl` children, carrying the
current section rank (initially 3) and the shared seen set. -/
def collectItems (uj : String → String → String) (pageUrl sourceCat : String)
    (catp : Nat) :
    List Element → Nat → List String → List Item × List String × List String
  | [], _, seen => ([], [], seen)
  | Element.h3 texts :: rest, _, seen =>
    collectItems uj pageUrl sourceCat catp rest (classifyHeading texts) seen
  | Element.dl dts dds :: rest, rank, seen =>
    let r := processPairs uj pageUrl sourceCat catp rank (dts.zip dds) seen
    let rs := collectItems uj pageUrl sourceCat catp rest rank r.2.2
    (r.1 ++ rs.1, r.2.1 ++ rs.2.1, rs.2.2)

/-- The first stable pass (line 132): identifier descending
(`sort(key=lambda x: x["id"], reverse=True)`; stable, so equal
identifiers keep their original order). -/
def sortPass1 (l : List Item) : List Item :=
  l.insertionSort (fun a b => pyStrLe b.id a.id = true)

/-- The second stable pass (line 133): section rank ascending. -/
def sortPass2 (l : List Item) : List Item :=
  l.insertionSort (fun a b => a.section_rank ≤ b.section_rank)

/-- The third stable pass (line 134): category priority ascending. -/
def sortPass3 (l : List Item) : List Item :=
  l.insertionSort (fun a b => a.cat_priority ≤ b.cat_priority)

/-- Lines 132-134: the three sequential stable sorts —
by identifier descending, then by section rank, then by category
priority.  Python `list.sort` is stable, including with `reverse=True`;
`List.insertionSort` is a stable sort, so it computes the same
reordering. -/
def sortItems (l : List Item) : List Item :=
  sortPass3 (sortPass2 (sortPass1 l))

/-- The whole `parse` method for one response: derive the source
category and its priority from the URL, collect candidates, sort.
Returns the sorted candidates (still carrying the transient keys,
which lines 137-140 strip just before yielding), the warnings, and the
updated seen set. -/
def parsePage (uj : String → String → String) (url : String)
    (page : List Element) (seen : List String) :
    List Item × List String × List String :=
  let sourceCat := sourceCatOf url
  let catp := CAT_PRIORITY sourceCat
  let r := collectItems uj url sourceCat catp page 3 seen
  (sortItems r.1, r.2.1, r.2.2)

/-- A run over a sequence of fetched pages, threading the shared
`seen_ids` set (created empty at `__init__`, line 36). -/
def runItems (uj : String → String → String) :
    List (String × List Element) → List String → List Item
  | [], _ => []
  | (url, page) :: rest, seen =>
    let r := parsePage uj url page seen
    r.1 ++ runItems uj rest r.2.2

/-- A run starting from the empty seen set. -/
def runAll (uj : String → String → String)
    (pages : List (String × List Element)) : List Item :=
  runItems uj pages []

/-- `^\d{4}\.\d{5}$`: exactly four digits, a dot, exactly five digits. -/
def isIdFormat (s : String) : Bool :=
  match s.data with
  | [a, b, c, d, e, f, g, h, i, j] =>
    a.isDigit && b.isDigit && c.isDigit && d.isDigit && e = '.' &&
      f.isDigit && g.isDigit && h.isDigit && i.isDigit && j.isDigit
  | _ => false

/-- A degenerate URL-resolution function used for concrete test pages:
the `href` attributes are given as already absolute URLs. -/
def ujId : String → String → String := fun _ href => href

/-- A default `Item`, used with `List.getD` in concrete witnesses. -/
def item0 : Item :=
  { id := "", abs := "", pdf := "", categories := [],
    cat_priority := 0, section_rank := 0 }

/-- A concrete listing-page URL used by witnesses. -/
def urlQA : String := "https://arxiv.org/list/math.QA/new"

/-- An anchor labelled as the abstract link, used by witnesses. -/
def absAnchor (u : String) : Anchor := { title := some ("Abstract"), href := some u }

/-- A small concrete page with two entries in the new-submissions
section, used by witnesses. -/
def pageTwo : List Element :=
  [Element.h3 ["New submissions"],
    Element.dl
      [[absAnchor ("https://arxiv.org/abs/2401.11111")],
        [absAnchor ("https://arxiv.org/abs/2401.33333")]]
      [["Quantum Algebra (math.QA)"], ["Representation Theory (math.RT)"]]]

/-- A concrete page whose single entry has an abstract URL containing
the substring `/abs/` twice. -/
def pageReplace : List Element :=
  [Element.dl [[absAnchor ("https://arxiv.org/abs/1234.12345/abs/x")]]
    [["(math.QA)"]]]

/-- A concrete page whose heading is the old-layout cross-list text. -/
def pageCross : List Element :=
  [Element.h3 ["Cross-lists for Mon, 3 Jun 24"],
    Element.dl [[absAnchor ("https://arxiv.org/abs/2401.22222")]]
      [["(math.RT)"]]]

/-- The lexicographic order the three stable passes are expected to
realise: category priority ascending, then section rank ascending,
then identifier descending. -/
def itemLex (a b : Item) : Prop :=
  a.cat_priority < b.cat_priority ∨
    (a.cat_priority = b.cat_priority ∧
      (a.section_rank < b.section_rank ∨
        (a.section_rank = b.section_rank ∧ pyStrLe b.id a.id = true)))

/-! ### Basic facts about the helper functions -/

theorem char_toNat_inj {a b : Char} (h : a.toNat = b.toNat) : a = b :=
  Char.eq_of_val_eq (UInt32.toNat.inj h)

theorem str_data_inj {a b : String} (h : a.data = b.data) : a = b :=
  congrArg String.mk h

theorem pyCharsLe_total : ∀ a b : List Char, (pyCharsLe a b || pyCharsLe b a) = true
  | [], _ => by simp [pyCharsLe]
  | _ :: _, [] => by simp [pyCharsLe]
  | a :: as, b :: bs => by
    simp only [pyCharsLe]
    rcases Nat.lt_trichotomy a.toNat b.toNat with h | h | h
    · simp [h]
    · simp only [h, Nat.lt_irrefl, if_false]
      exact pyCharsLe_total as bs
    · simp [h, Nat.lt_asymm h]

theorem pyCharsLe_trans :
    ∀ a b c : List Char, pyCharsLe a b = true → pyCharsLe b c = true →
      pyCharsLe a c = true
  | [], _, _, _, _ => by simp [pyCharsLe]
  | _ :: _, [], _, h, _ => by simp [pyCharsLe] at h
  | _ :: _, _ :: _, [], _, h => by simp [pyCharsLe] at h
  | a :: as, b :: bs, c :: cs, h1, h2 => by
    simp only [pyCharsLe] at h1 h2 ⊢
    by_cases hab : a.toNat < b.toNat
    · by_cases hbc : b.toNat < c.toNat
      · rw [if_pos (Nat.lt_trans hab hbc)]
      · by_cases hcb : c.toNat < b.toNat
        · rw [if_neg hbc, if_pos hcb] at h2
          exact absurd h2 (by simp)
        · rw [if_pos (by omega : a.toNat < c.toNat)]
    · by_cases hba : b.toNat < a.toNat
      · rw [if_neg hab, if_pos hba] at h1
        exact absurd h1 (by simp)
      · rw [if_neg hab, if_neg hba] at h1
        by_cases hbc : b.toNat < c.toNat
        · rw [if_pos (by omega : a.toNat < c.toNat)]
        · by_cases hcb : c.toNat < b.toNat
          · rw [if_neg hbc, if_pos hcb] at h2
            exact absurd h2 (by simp)
          · rw [if_neg hbc, if_neg hcb] at h2
            rw [if_neg (by omega : ¬a.toNat < c.toNat),
              if_neg (by omega : ¬c.toNat < a.toNat)]
            exact pyCharsLe_trans as bs cs h1 h2

theorem pyCharsLe_antisymm :
    ∀ a b : List Char, pyCharsLe a b = true → pyCharsLe b a = true → a = b
  | [], [], _, _ => rfl
  | [], _ :: _, _, h => by simp [pyCharsLe] at h
  | _ :: _, [], h, _ => by simp [pyCharsLe] at h
  | a :: as, b :: bs, h1, h2 => by
    simp only [pyCharsLe] at h1 h2
    by_cases hab : a.toNat < b.toNat
    · rw [if_neg (by omega : ¬b.toNat < a.toNat), if_pos hab] at h2
      exact absurd h2 (by simp)
    · by_cases hba : b.toNat < a.toNat
      · rw [if_neg hab, if_pos hba] at h1
        exact absurd h1 (by simp)
      · rw [if_neg hab, if_neg hba] at h1
        rw [if_neg hba, if_neg hab] at h2
        rw [char_toNat_inj (by omega : a.toNat = b.toNat),
          pyCharsLe_antisymm as bs h1 h2]

theorem pyStrLe_total (a b : String) : (pyStrLe a b || pyStrLe b a) = true :=
  pyCharsLe_total a.data b.data

theorem pyStrLe_trans {a b c : String} (h1 : pyStrLe a b = true)
    (h2 : pyStrLe b c = true) : pyStrLe a c = true :=
  pyCharsLe_trans a.data b.data c.data h1 h2

theorem pyStrLe_antisymm {a b : String} (h1 : pyStrLe a b = true)
    (h2 : pyStrLe b a = true) : a = b :=
  str_data_inj (pyCharsLe_antisymm a.data b.data h1 h2)

theorem listStartsWith_iff :
    ∀ n h : List Char, listStartsWith n h = true ↔ ∃ t, h = n ++ t
  | [], h => by simp [listStartsWith]
  | a :: as, [] => by simp [listStartsWith]
  | a :: as, b :: bs => by
    simp only [listStartsWith, Bool.and_eq_true, decide_eq_true_eq,
      listStartsWith_iff as bs]
    constructor
    · rintro ⟨rfl, t, rfl⟩
      exact ⟨t, rfl⟩
    · rintro ⟨t, ht⟩
      simp only [List.cons_append, List.cons.injEq] at ht
      exact ⟨ht.1.symm, t, ht.2⟩

theorem containsSub_iff :
    ∀ n h : List Char, containsSub n h = true ↔ ∃ pre suf, h = pre ++ n ++ suf
  | n, [] => by
    simp only [containsSub, listStartsWith_iff]
    constructor
    · rintro ⟨t, ht⟩
      obtain ⟨h1, h2⟩ := List.append_eq_nil.mp ht.symm
      exact ⟨[], [], by simp [h1]⟩
    · rintro ⟨pre, suf, hs⟩
      obtain ⟨h1, h2⟩ := List.append_eq_nil.mp hs.symm
      obtain ⟨h3, h4⟩ := List.append_eq_nil.mp h1
      exact ⟨[], by simp [h4]⟩
  | n, c :: t => by
    simp only [containsSub, Bool.or_eq_true, listStartsWith_iff,
      containsSub_iff n t]
    constructor
    · rintro (⟨s, hs⟩ | ⟨pre, suf, hs⟩)
      · exact ⟨[], s, by simpa using hs⟩
      · exact ⟨c :: pre, suf, by simp [hs]⟩
    · rintro ⟨pre, suf, hs⟩
      cases pre with
      | nil => exact Or.inl ⟨suf, by simpa using hs⟩
      | cons p pre =>
        simp only [List.cons_append, List.cons.injEq] at hs
        exact Or.inr ⟨pre, suf, hs.2⟩

theorem pair_sublist_getElem (l : List α) {i j : Nat} (hi : i < l.length)
    (hj : j < l.length) (hij : i < j) :
    List.Sublist [l.get ⟨i, hi⟩, l.get ⟨j, hj⟩] l := by
  have h := @List.map_getElem_sublist _ l [⟨i, hi⟩, ⟨j, hj⟩] (by simpa using hij)
  simpa using h

theorem mem_mem_ne_sublist {a b : α} :
    ∀ {l : List α}, a ∈ l → b ∈ l → a ≠ b →
      List.Sublist [a, b] l ∨ List.Sublist [b, a] l := by
  intro l
  induction l with
  | nil => intro h; cases h
  | cons x t ih =>
    intro ha hb hne
    rcases List.mem_cons.mp ha with hax | hat
    · rcases List.mem_cons.mp hb with hbx | hbt
      · exact absurd (hax.trans hbx.symm) hne
      · refine Or.inl ?_
        rw [hax]
        exact List.cons_sublist_cons.mpr (List.singleton_sublist.mpr hbt)
    · rcases List.mem_cons.mp hb with hbx | hbt
      · refine Or.inr ?_
        rw [hbx]
        exact List.cons_sublist_cons.mpr (List.singleton_sublist.mpr hat)
      · rcases ih hat hbt hne with h | h
        · exact Or.inl (h.cons x)
        · exact Or.inr (h.cons x)

theorem pair_sublist_antisymm {a b : α} :
    ∀ {l : List α}, l.Nodup → List.Sublist [a, b] l → List.Sublist [b, a] l →
      a = b := by
  intro l
  induction l with
  | nil => intro _ h; simp at h
  | cons x t ih =>
    intro hn h1 h2
    rcases List.sublist_cons_iff.mp h1 with h1t | ⟨r1, hr1, hr1t⟩
    · rcases List.sublist_cons_iff.mp h2 with h2t | ⟨r2, hr2, hr2t⟩
      · exact ih (List.nodup_cons.mp hn).2 h1t h2t
      · have hb : b ∈ t := h1t.subset (by simp)
        injection hr2 with hbx hr2r
        exact absurd (hbx ▸ hb) (List.nodup_cons.mp hn).1
    · rcases List.sublist_cons_iff.mp h2 with h2t | ⟨r2, hr2, hr2t⟩
      · have ha : a ∈ t := h2t.subset (by simp)
        injection hr1 with hax hr1r
        exact absurd (hax ▸ ha) (List.nodup_cons.mp hn).1
      · injection hr1 with hax hr1r
        injection hr2 with hbx hr2r
        exact hax.trans hbx.symm

/-! ### The three stable passes realise the lexicographic order -/

theorem pair_sublist_of_insertionSort {r : α → α → Prop} [DecidableRel r]
    {l : List α} (hn : l.Nodup) {a b : α}
    (h : List.Sublist [a, b] (List.insertionSort r l)) (hba : r b a) :
    List.Sublist [a, b] l := by
  have hperm : List.Perm (List.insertionSort r l) l := List.perm_insertionSort r l
  have hnodup : (List.insertionSort r l).Nodup := hperm.nodup_iff.mpr hn
  have hne : a ≠ b := by
    intro he
    subst he
    exact (List.nodup_iff_sublist.mp hnodup a) h
  have ha : a ∈ l := hperm.subset (h.subset (by simp))
  have hb : b ∈ l := hperm.subset (h.subset (by simp))
  rcases mem_mem_ne_sublist ha hb hne with hgood | hbad
  · exact hgood
  · have hup : List.Sublist [b, a] (List.insertionSort r l) :=
      List.pair_sublist_insertionSort hba hbad
    exact absurd (pair_sublist_antisymm hnodup h hup) hne

theorem sortPass1_perm (l : List Item) : List.Perm (sortPass1 l) l :=
  List.perm_insertionSort _ l

theorem sortPass2_perm (l : List Item) : List.Perm (sortPass2 l) l :=
  List.perm_insertionSort _ l

theorem sortPass3_perm (l : List Item) : List.Perm (sortPass3 l) l :=
  List.perm_insertionSort _ l

theorem sortItems_perm (l : List Item) : List.Perm (sortItems l) l :=
  ((sortPass3_perm _).trans (sortPass2_perm _)).trans (sortPass1_perm l)

theorem sortPass1_sorted (l : List Item) :
    (sortPass1 l).Pairwise (fun a b => pyStrLe b.id a.id = true) := by
  haveI : IsTotal Item (fun a b => pyStrLe b.id a.id = true) :=
    ⟨fun a b => Bool.or_eq_true_iff.mp (pyStrLe_total b.id a.id)⟩
  haveI : IsTrans Item (fun a b => pyStrLe b.id a.id = true) :=
    ⟨fun _ _ _ h1 h2 => pyStrLe_trans h2 h1⟩
  exact List.sorted_insertionSort _ l

theorem sortPass2_sorted (l : List Item) :
    (sortPass2 l).Pairwise (fun a b => a.section_rank ≤ b.section_rank) := by
  haveI : IsTotal Item (fun a b : Item => a.section_rank ≤ b.section_rank) :=
    ⟨fun a b => Nat.le_total a.section_rank b.section_rank⟩
  haveI : IsTrans Item (fun a b : Item => a.section_rank ≤ b.section_rank) :=
    ⟨fun _ _ _ h1 h2 => Nat.le_trans h1 h2⟩
  exact List.sorted_insertionSort _ l

theorem sortPass3_sorted (l : List Item) :
    (sortPass3 l).Pairwise (fun a b => a.cat_priority ≤ b.cat_priority) := by
  haveI : IsTotal Item (fun a b : Item => a.cat_priority ≤ b.cat_priority) :=
    ⟨fun a b => Nat.le_total a.cat_priority b.cat_priority⟩
  haveI : IsTrans Item (fun a b : Item => a.cat_priority ≤ b.cat_priority) :=
    ⟨fun _ _ _ h1 h2 => Nat.le_trans h1 h2⟩
  exact List.sorted_insertionSort _ l

theorem sortItems_pairwise_lex {l : List Item} (hn : (l.map Item.id).Nodup) :
    (sortItems l).Pairwise itemLex := by
  have hnl : l.Nodup := hn.of_map
  have hn1 : (sortPass1 l).Nodup := (sortPass1_perm l).nodup_iff.mpr hnl
  have hn2 : (sortPass2 (sortPass1 l)).Nodup :=
    (sortPass2_perm _).nodup_iff.mpr hn1
  rw [List.pairwise_iff_forall_sublist]
  intro a b hsub
  have hcat : a.cat_priority ≤ b.cat_priority :=
    List.pairwise_iff_forall_sublist.mp (sortPass3_sorted _) hsub
  rcases Nat.lt_or_ge a.cat_priority b.cat_priority with hlt | hge
  · exact Or.inl hlt
  · have hceq : a.cat_priority = b.cat_priority := Nat.le_antisymm hcat hge
    have hsub2 : List.Sublist [a, b] (sortPass2 (sortPass1 l)) :=
      pair_sublist_of_insertionSort hn2 hsub (by omega)
    have hrank : a.section_rank ≤ b.section_rank :=
      List.pairwise_iff_forall_sublist.mp (sortPass2_sorted _) hsub2
    rcases Nat.lt_or_ge a.section_rank b.section_rank with hlt2 | hge2
    · exact Or.inr ⟨hceq, Or.inl hlt2⟩
    · have hreq : a.section_rank = b.section_rank := Nat.le_antisymm hrank hge2
      have hsub1 : List.Sublist [a, b] (sortPass1 l) :=
        pair_sublist_of_insertionSort hn1 hsub2 (by omega)
      have hid : pyStrLe b.id a.id = true :=
        List.pairwise_iff_forall_sublist.mp (sortPass1_sorted _) hsub1
      exact Or.inr ⟨hceq, Or.inr ⟨hreq, hid⟩⟩

/-! ### Shape of one processed entry, and the seen-set invariants -/

theorem processEntry_spec (uj : String → String → String)
    (pageUrl sourceCat : String) (catp rank : Nat) (seen : List String)
    (dt : List Anchor) (dd : List String) :
    (∃ href idChars, getAbsHref dt = some href ∧
        extractId (uj pageUrl href).data = some idChars ∧
        String.mk idChars ∉ seen ∧
        processEntry uj pageUrl sourceCat catp rank seen dt dd =
          (some { id := String.mk idChars, abs := uj pageUrl href,
                  pdf := pyReplace (uj pageUrl href) ("/abs/") ("/pdf/"),
                  categories :=
                    ((findCodes (subjectsText dd).data).map String.mk).dedup,
                  cat_priority := catp, section_rank := rank },
            (if subjectsText dd = "" then [warnMsg (String.mk idChars) sourceCat]
              else []),
            String.mk idChars :: seen)) ∨
      processEntry uj pageUrl sourceCat catp rank seen dt dd =
        (none, [], seen) := by
  rcases hgh : getAbsHref dt with _ | href
  · right
    simp [processEntry, hgh]
  · rcases hei : extractId (uj pageUrl href).data with _ | idChars
    · right
      simp [processEntry, hgh, hei]
    · by_cases hmem : String.mk idChars ∈ seen
      · right
        simp [processEntry, hgh, hei, hmem]
      · left
        refine ⟨href, idChars, rfl, hei, hmem, ?_⟩
        simp [processEntry, hgh, hei, hmem]

theorem processPairs_cons (uj : String → String → String)
    (pageUrl sourceCat : String) (catp rank : Nat) (dt : List Anchor)
    (dd : List String) (rest : List (List Anchor × List String))
    (seen : List String) :
    processPairs uj pageUrl sourceCat catp rank ((dt, dd) :: rest) seen =
      ((processEntry uj pageUrl sourceCat catp rank seen dt dd).1.toList ++
          (processPairs uj pageUrl sourceCat catp rank rest
            (processEntry uj pageUrl sourceCat catp rank seen dt dd).2.2).1,
        (processEntry uj pageUrl sourceCat catp rank seen dt dd).2.1 ++
          (processPairs uj pageUrl sourceCat catp rank rest
            (processEntry uj pageUrl sourceCat catp rank seen dt dd).2.2).2.1,
        (processPairs uj pageUrl sourceCat catp rank rest
          (processEntry uj pageUrl sourceCat catp rank seen dt dd).2.2).2.2) :=
  rfl

theorem collectItems_h3 (uj : String → String → String)
    (pageUrl sourceCat : String) (catp : Nat) (texts : List String)
    (rest : List Element) (rank : Nat) (seen : List String) :
    collectItems uj pageUrl sourceCat catp (Element.h3 texts :: rest) rank
        seen =
      collectItems uj pageUrl sourceCat catp rest (classifyHeading texts)
        seen :=
  rfl

theorem collectItems_dl (uj : String → String → String)
    (pageUrl sourceCat : String) (catp : Nat) (dts : List (List Anchor))
    (dds : List (List String)) (rest : List Element) (rank : Nat)
    (seen : List String) :
    collectItems uj pageUrl sourceCat catp (Element.dl dts dds :: rest) rank
        seen =
      ((processPairs uj pageUrl sourceCat catp rank (dts.zip dds) seen).1 ++
          (collectItems uj pageUrl sourceCat catp rest rank
            (processPairs uj pageUrl sourceCat catp rank (dts.zip dds)
              seen).2.2).1,
        (processPairs uj pageUrl sourceCat catp rank (dts.zip dds) seen).2.1 ++
          (collectItems uj pageUrl sourceCat catp rest rank
            (processPairs uj pageUrl sourceCat catp rank (dts.zip dds)
              seen).2.2).2.1,
        (collectItems uj pageUrl sourceCat catp rest rank
          (processPairs uj pageUrl sourceCat catp rank (dts.zip dds)
            seen).2.2).2.2) :=
  rfl

theorem processPairs_spec (uj : String → String → String)
    (pageUrl sourceCat : String) (catp rank : Nat) :
    ∀ (pairs : List (List Anchor × List String)) (seen : List String),
      ((processPairs uj pageUrl sourceCat catp rank pairs seen).1.map
          Item.id).Nodup ∧
      (∀ s ∈ (processPairs uj pageUrl sourceCat catp rank pairs seen).1.map
          Item.id,
          s ∉ seen ∧
            s ∈ (processPairs uj pageUrl sourceCat catp rank pairs seen).2.2) ∧
      (∀ s ∈ seen,
          s ∈ (processPairs uj pageUrl sourceCat catp rank pairs seen).2.2)
  | [], seen => by simp [processPairs]
  | (dt, dd) :: rest, seen => by
    rcases processEntry_spec uj pageUrl sourceCat catp rank seen dt dd with
      ⟨href, idChars, hgh, hei, hmem, heq⟩ | heq
    · obtain ⟨hnd, hfresh, hgrow⟩ := processPairs_spec uj pageUrl sourceCat
        catp rank rest (String.mk idChars :: seen)
      rw [processPairs_cons, heq]
      simp only [Option.toList, List.singleton_append]
      refine ⟨?_, ?_, ?_⟩
      · rw [List.map_cons, List.nodup_cons]
        exact ⟨fun hin => (hfresh _ hin).1 (List.mem_cons_self _ _), hnd⟩
      · intro s hs
        rw [List.map_cons] at hs
        rcases List.mem_cons.mp hs with rfl | hs
        · exact ⟨hmem, hgrow _ (List.mem_cons_self _ _)⟩
        · have h2 := hfresh s hs
          exact ⟨fun hc => h2.1 (List.mem_cons_of_mem _ hc), h2.2⟩
      · intro s hs
        exact hgrow s (List.mem_cons_of_mem _ hs)
    · obtain ⟨hnd, hfresh, hgrow⟩ := processPairs_spec uj pageUrl sourceCat
        catp rank rest seen
      rw [processPairs_cons, heq]
      simp only [Option.toList, List.nil_append]
      exact ⟨hnd, hfresh, hgrow⟩

theorem collectItems_spec (uj : String → String → String)
    (pageUrl sourceCat : String) (catp : Nat) :
    ∀ (es : List Element) (rank : Nat) (seen : List String),
      ((collectItems uj pageUrl sourceCat catp es rank seen).1.map
          Item.id).Nodup ∧
      (∀ s ∈ (collectItems uj pageUrl sourceCat catp es rank seen).1.map
          Item.id,
          s ∉ seen ∧
            s ∈ (collectItems uj pageUrl sourceCat catp es rank seen).2.2) ∧
      (∀ s ∈ seen,
          s ∈ (collectItems uj pageUrl sourceCat catp es rank seen).2.2)
  | [], rank, seen => by simp [collectItems]
  | Element.h3 texts :: rest, rank, seen => by
    rw [collectItems_h3]
    exact collectItems_spec uj pageUrl sourceCat catp rest
      (classifyHeading texts) seen
  | Element.dl dts dds :: rest, rank, seen => by
    obtain ⟨hnd1, hfresh1, hgrow1⟩ := processPairs_spec uj pageUrl sourceCat
      catp rank (dts.zip dds) seen
    obtain ⟨hnd2, hfresh2, hgrow2⟩ := collectItems_spec uj pageUrl sourceCat
      catp rest rank
      (processPairs uj pageUrl sourceCat catp rank (dts.zip dds) seen).2.2
    rw [collectItems_dl]
    dsimp only
    refine ⟨?_, ?_, ?_⟩
    · rw [List.map_append, List.nodup_append]
      refine ⟨hnd1, hnd2, ?_⟩
      intro s hs1 hs2
      exact (hfresh2 s hs2).1 (hfresh1 s hs1).2
    · intro s hs
      rw [List.map_append] at hs
      rcases List.mem_append.mp hs with hs | hs
      · have h1 := hfresh1 s hs
        exact ⟨h1.1, hgrow2 s h1.2⟩
      · have h2 := hfresh2 s hs
        exact ⟨fun hc => h2.1 (hgrow1 s hc), h2.2⟩
    · intro s hs
      exact hgrow2 s (hgrow1 s hs)

theorem processEntry_pos (uj : String → String → String)
    (pageUrl sourceCat : String) (catp rank : Nat) (seen : List String)
    (dt : List Anchor) (dd : List String) (href : String)
    (idChars : List Char) (hgh : getAbsHref dt = some href)
    (hei : extractId (uj pageUrl href).data = some idChars)
    (hmem : String.mk idChars ∉ seen) :
    processEntry uj pageUrl sourceCat catp rank seen dt dd =
      (some { id := String.mk idChars, abs := uj pageUrl href,
              pdf := pyReplace (uj pageUrl href) ("/abs/") ("/pdf/"),
              categories :=
                ((findCodes (subjectsText dd).data).map String.mk).dedup,
              cat_priority := catp, section_rank := rank },
        (if subjectsText dd = "" then [warnMsg (String.mk idChars) sourceCat]
          else []),
        String.mk idChars :: seen) := by
  simp [processEntry, hgh, hei, hmem]

theorem processEntry_skip_seen (uj : String → String → String)
    (pageUrl sourceCat : String) (catp rank : Nat) (seen : List String)
    (dt : List Anchor) (dd : List String) (href : String)
    (idChars : List Char) (hgh : getAbsHref dt = some href)
    (hei : extractId (uj pageUrl href).data = some idChars)
    (hmem : String.mk idChars ∈ seen) :
    processEntry uj pageUrl sourceCat catp rank seen dt dd =
      (none, [], seen) := by
  simp [processEntry, hgh, hei, hmem]

theorem processEntry_no_href (uj : String → String → String)
    (pageUrl sourceCat : String) (catp rank : Nat) (seen : List String)
    (dt : List Anchor) (dd : List String) (hgh : getAbsHref dt = none) :
    processEntry uj pageUrl sourceCat catp rank seen dt dd =
      (none, [], seen) := by
  simp [processEntry, hgh]

theorem processEntry_no_id (uj : String → String → String)
    (pageUrl sourceCat : String) (catp rank : Nat) (seen : List String)
    (dt : List Anchor) (dd : List String) (href : String)
    (hgh : getAbsHref dt = some href)
    (hei : extractId (uj pageUrl href).data = none) :
    processEntry uj pageUrl sourceCat catp rank seen dt dd =
      (none, [], seen) := by
  simp [processEntry, hgh, hei]

/-! ### Anatomy of an emitted candidate record -/

theorem processPairs_mem (uj : String → String → String)
    (pageUrl sourceCat : String) (catp rank : Nat) :
    ∀ (pairs : List (List Anchor × List String)) (seen : List String)
      (it : Item),
      it ∈ (processPairs uj pageUrl sourceCat catp rank pairs seen).1 →
      extractId it.abs.data = some it.id.data ∧
        it.pdf = pyReplace it.abs ("/abs/") ("/pdf/") ∧
        it.cat_priority = catp ∧
        it.section_rank = rank ∧
        ∃ dd, it.categories =
          ((findCodes (subjectsText dd).data).map String.mk).dedup
  | [], seen, it => by simp [processPairs]
  | (dt, dd) :: rest, seen, it => by
    intro hmem
    rcases processEntry_spec uj pageUrl sourceCat catp rank seen dt dd with
      ⟨href, idChars, hgh, hei, hfresh, heq⟩ | heq
    · rw [processPairs_cons, heq] at hmem
      simp only [Option.toList, List.singleton_append] at hmem
      rcases List.mem_cons.mp hmem with rfl | hmem
      · exact ⟨hei, rfl, rfl, rfl, dd, rfl⟩
      · exact processPairs_mem uj pageUrl sourceCat catp rank rest
          (String.mk idChars :: seen) it hmem
    · rw [processPairs_cons, heq] at hmem
      simp only [Option.toList, List.nil_append] at hmem
      exact processPairs_mem uj pageUrl sourceCat catp rank rest seen it hmem

theorem collectItems_mem (uj : String → String → String)
    (pageUrl sourceCat : String) (catp : Nat) :
    ∀ (es : List Element) (rank : Nat) (seen : List String) (it : Item),
      it ∈ (collectItems uj pageUrl sourceCat catp es rank seen).1 →
      extractId it.abs.data = some it.id.data ∧
        it.pdf = pyReplace it.abs ("/abs/") ("/pdf/") ∧
        it.cat_priority = catp ∧
        ∃ dd, it.categories =
          ((findCodes (subjectsText dd).data).map String.mk).dedup
  | [], rank, seen, it => by simp [collectItems]
  | Element.h3 texts :: rest, rank, seen, it => by
    rw [collectItems_h3]
    exact collectItems_mem uj pageUrl sourceCat catp rest
      (classifyHeading texts) seen it
  | Element.dl dts dds :: rest, rank, seen, it => by
    intro hmem
    rw [collectItems_dl] at hmem
    rcases List.mem_append.mp hmem with hmem | hmem
    · obtain ⟨h1, h2, h3, _, h5⟩ := processPairs_mem uj pageUrl sourceCat catp
        rank (dts.zip dds) seen it hmem
      exact ⟨h1, h2, h3, h5⟩
    · exact collectItems_mem uj pageUrl sourceCat catp rest rank _ it hmem

theorem collectItems_rank_of_no_heading (uj : String → String → String)
    (pageUrl sourceCat : String) (catp : Nat) :
    ∀ (es : List Element) (rank : Nat) (seen : List String),
      (∀ e ∈ es, isHeading e = false) →
      ∀ it ∈ (collectItems uj pageUrl sourceCat catp es rank seen).1,
        it.section_rank = rank
  | [], rank, seen => by simp [collectItems]
  | Element.h3 texts :: rest, rank, seen => by
    intro hno
    have := hno (Element.h3 texts) (List.mem_cons_self _ _)
    simp [isHeading] at this
  | Element.dl dts dds :: rest, rank, seen => by
    intro hno it hmem
    rw [collectItems_dl] at hmem
    rcases List.mem_append.mp hmem with hmem | hmem
    · exact (processPairs_mem uj pageUrl sourceCat catp rank (dts.zip dds)
        seen it hmem).2.2.2.1
    · exact collectItems_rank_of_no_heading uj pageUrl sourceCat catp rest rank
        _ (fun e he => hno e (List.mem_cons_of_mem _ he)) it hmem

/-! ### Page-level and run-level consequences -/

theorem parsePage_def (uj : String → String → String) (url : String)
    (page : List Element) (seen : List String) :
    parsePage uj url page seen =
      (sortItems (collectItems uj url (sourceCatOf url)
          (CAT_PRIORITY (sourceCatOf url)) page 3 seen).1,
        (collectItems uj url (sourceCatOf url) (CAT_PRIORITY (sourceCatOf url))
          page 3 seen).2.1,
        (collectItems uj url (sourceCatOf url) (CAT_PRIORITY (sourceCatOf url))
          page 3 seen).2.2) :=
  rfl

theorem parsePage_ids_nodup (uj : String → String → String) (url : String)
    (page : List Element) (seen : List String) :
    ((parsePage uj url page seen).1.map Item.id).Nodup := by
  rw [parsePage_def]
  exact ((sortItems_perm _).map Item.id).nodup_iff.mpr
    (collectItems_spec uj url (sourceCatOf url)
      (CAT_PRIORITY (sourceCatOf url)) page 3 seen).1

theorem parsePage_mem (uj : String → String → String) (url : String)
    (page : List Element) (seen : List String) (it : Item)
    (hmem : it ∈ (parsePage uj url page seen).1) :
    extractId it.abs.data = some it.id.data ∧
      it.pdf = pyReplace it.abs ("/abs/") ("/pdf/") ∧
      it.cat_priority = CAT_PRIORITY (sourceCatOf url) ∧
      ∃ dd, it.categories =
        ((findCodes (subjectsText dd).data).map String.mk).dedup := by
  rw [parsePage_def] at hmem
  exact collectItems_mem uj url (sourceCatOf url)
    (CAT_PRIORITY (sourceCatOf url)) page 3 seen it
    ((sortItems_perm _).subset hmem)

theorem parsePage_fresh (uj : String → String → String) (url : String)
    (page : List Element) (seen : List String) :
    ∀ s ∈ (parsePage uj url page seen).1.map Item.id,
      s ∉ seen ∧ s ∈ (parsePage uj url page seen).2.2 := by
  intro s hs
  rw [parsePage_def] at hs ⊢
  refine (collectItems_spec uj url (sourceCatOf url)
    (CAT_PRIORITY (sourceCatOf url)) page 3 seen).2.1 s ?_
  exact ((sortItems_perm _).map Item.id).subset hs

theorem parsePage_grow (uj : String → String → String) (url : String)
    (page : List Element) (seen : List String) :
    ∀ s ∈ seen, s ∈ (parsePage uj url page seen).2.2 := by
  intro s hs
  rw [parsePage_def]
  exact (collectItems_spec uj url (sourceCatOf url)
    (CAT_PRIORITY (sourceCatOf url)) page 3 seen).2.2 s hs

theorem runItems_cons (uj : String → String → String) (url : String)
    (page : List Element) (rest : List (String × List Element))
    (seen : List String) :
    runItems uj ((url, page) :: rest) seen =
      (parsePage uj url page seen).1 ++
        runItems uj rest (parsePage uj url page seen).2.2 :=
  rfl

theorem runItems_spec (uj : String → String → String) :
    ∀ (pages : List (String × List Element)) (seen : List String),
      ((runItems uj pages seen).map Item.id).Nodup ∧
      (∀ s ∈ (runItems uj pages seen).map Item.id, s ∉ seen)
  | [], seen => by simp [runItems]
  | (url, page) :: rest, seen => by
    obtain ⟨hnd2, hfresh2⟩ := runItems_spec uj rest
      (parsePage uj url page seen).2.2
    rw [runItems_cons]
    constructor
    · rw [List.map_append, List.nodup_append]
      refine ⟨parsePage_ids_nodup uj url page seen, hnd2, ?_⟩
      intro s hs1 hs2
      exact (hfresh2 s hs2) ((parsePage_fresh uj url page seen) s hs1).2
    · intro s hs
      rw [List.map_append] at hs
      rcases List.mem_append.mp hs with hs | hs
      · exact ((parsePage_fresh uj url page seen) s hs).1
      · exact fun hc =>
          (hfresh2 s hs) (parsePage_grow uj url page seen s hc)

/-! ### The subject-code scanner -/

theorem findCodesAux_nil (k : Nat) : findCodesAux k [] = [] := by
  cases k <;> rfl

theorem findCodesAux_succ (k : Nat) (x : Char) (t : List Char) :
    findCodesAux (k + 1) (x :: t) = findCodesAux k t := rfl

theorem findCodesAux_skip :
    ∀ (pre t : List Char), findCodesAux pre.length (pre ++ t) = findCodesAux 0 t
  | [], t => rfl
  | x :: pre, t => by
    rw [List.cons_append, List.length_cons, findCodesAux_succ]
    exact findCodesAux_skip pre t

theorem takeWhile_append_stop (p : α → Bool) :
    ∀ (run : List α) (d : α) (rest : List α), (∀ x ∈ run, p x = true) →
      p d = false →
      (run ++ d :: rest).takeWhile p = run ∧
        (run ++ d :: rest).dropWhile p = d :: rest
  | [], d, rest, _, hd => by
    simp [List.takeWhile_cons, List.dropWhile_cons, hd]
  | x :: run, d, rest, hall, hd => by
    have hx : p x = true := hall x (List.mem_cons_self _ _)
    have ih := takeWhile_append_stop p run d rest
      (fun y hy => hall y (List.mem_cons_of_mem _ hy)) hd
    simp [List.takeWhile_cons, List.dropWhile_cons, hx, ih.1, ih.2]

theorem findCodes_cons_eq (c : Char) (t : List Char) :
    findCodes (c :: t) =
      match matchCode (c :: t) with
      | some p => p.1 :: findCodes p.2
      | none => findCodes t := by
  show findCodesAux 0 (c :: t) = _
  by_cases hc : c = '('
  · subst hc
    by_cases htw : (t.takeWhile isCodeLower).isEmpty
    · simp [findCodesAux, matchCode, htw, findCodes]
    · rcases hdw : t.dropWhile isCodeLower with _ | ⟨d, _ | ⟨u, _ | ⟨v, _ | ⟨w, r⟩⟩⟩⟩
      · simp [findCodesAux, matchCode, htw, hdw, findCodes]
      · simp [findCodesAux, matchCode, htw, hdw, findCodes]
      · simp [findCodesAux, matchCode, htw, hdw, findCodes]
      · simp [findCodesAux, matchCode, htw, hdw, findCodes]
      · by_cases hcond :
          (d = '.' && isCodeUpper u && isCodeUpper v && w = ')') = true
        · have ht : t = t.takeWhile isCodeLower ++ (d :: u :: v :: w :: r) := by
            rw [← hdw, List.takeWhile_append_dropWhile]
          have hskip : findCodesAux ((t.takeWhile isCodeLower).length + 4) t =
              findCodesAux 0 r := by
            have h4 : (t.takeWhile isCodeLower ++ [d, u, v, w]).length =
                (t.takeWhile isCodeLower).length + 4 := by simp
            have hassoc :
                t.takeWhile isCodeLower ++ (d :: u :: v :: w :: r) =
                  (t.takeWhile isCodeLower ++ [d, u, v, w]) ++ r := by simp
            calc findCodesAux ((t.takeWhile isCodeLower).length + 4) t
                = findCodesAux ((t.takeWhile isCodeLower ++ [d, u, v, w]).length)
                    ((t.takeWhile isCodeLower ++ [d, u, v, w]) ++ r) := by
                  rw [h4]
                  congr 1
                  rw [← hassoc, ← ht]
              _ = findCodesAux 0 r := findCodesAux_skip _ _
          simp [findCodesAux, matchCode, htw, hdw, hcond, findCodes, hskip]
        · simp [findCodesAux, matchCode, htw, hdw, hcond, findCodes]
  · simp [findCodesAux, matchCode, hc, findCodes]

theorem matchCode_some (l code r : List Char)
    (h : matchCode l = some (code, r)) :
    ∃ run u v, run ≠ [] ∧ (∀ x ∈ run, isCodeLower x = true) ∧
      isCodeUpper u = true ∧ isCodeUpper v = true ∧
      code = run ++ '.' :: u :: v :: [] ∧
      l = '(' :: run ++ '.' :: u :: v :: ')' :: r := by
  cases l with
  | nil => simp [matchCode] at h
  | cons c t =>
    by_cases hc : c = '('
    · subst hc
      by_cases htw : (t.takeWhile isCodeLower).isEmpty
      · simp [matchCode, htw] at h
      · rcases hdw : t.dropWhile isCodeLower with
          _ | ⟨d, _ | ⟨u, _ | ⟨v, _ | ⟨w, r2⟩⟩⟩⟩
        · simp [matchCode, htw, hdw] at h
        · simp [matchCode, htw, hdw] at h
        · simp [matchCode, htw, hdw] at h
        · simp [matchCode, htw, hdw] at h
        · by_cases hcond :
            (d = '.' && isCodeUpper u && isCodeUpper v && w = ')') = true
          · have hcond2 := hcond
            simp only [Bool.and_eq_true, decide_eq_true_eq] at hcond2
            obtain ⟨⟨⟨hd, hu⟩, hv⟩, hw⟩ := hcond2
            subst hd
            subst hw
            simp [matchCode, htw, hdw, hu, hv] at h
            obtain ⟨hcode, hr⟩ := h
            refine ⟨t.takeWhile isCodeLower, u, v, ?_,
              fun x hx => List.mem_takeWhile_imp hx, hu, hv, hcode.symm, ?_⟩
            · intro he
              rw [he] at htw
              exact htw rfl
            · have ht : t =
                  t.takeWhile isCodeLower ++ ('.' :: u :: v :: ')' :: r) := by
                conv_lhs =>
                  rw [← List.takeWhile_append_dropWhile isCodeLower t]
                rw [hdw, hr]
              rw [List.cons_append, ← ht]
          · simp [matchCode, htw, hdw, hcond] at h
    · simp [matchCode, hc] at h

theorem matchCode_of_shape (run : List Char) (u v : Char) (suf : List Char)
    (hrun : run ≠ []) (hall : ∀ x ∈ run, isCodeLower x = true)
    (hu : isCodeUpper u = true) (hv : isCodeUpper v = true) :
    matchCode ('(' :: run ++ '.' :: u :: v :: ')' :: suf) =
      some (run ++ '.' :: u :: v :: [], suf) := by
  have hstop := takeWhile_append_stop isCodeLower run '.'
    (u :: v :: ')' :: suf) hall (by decide)
  have hshape : ('(' : Char) :: run ++ '.' :: u :: v :: ')' :: suf =
      '(' :: (run ++ '.' :: u :: v :: ')' :: suf) := by simp
  rw [hshape]
  simp only [matchCode, if_pos rfl, hstop.1, hstop.2]
  have hne : ¬ run.isEmpty = true := by
    cases run with
    | nil => exact absurd rfl hrun
    | cons a b => simp
  simp [hne, hu, hv]

theorem eq_of_append_rparen :
    ∀ (a b x y : List Char), ')' ∉ a → ')' ∉ b →
      a ++ ')' :: x = b ++ ')' :: y → a = b ∧ x = y
  | [], [], x, y, _, _, h => by simpa using h
  | [], z :: b, x, y, _, hb, h => by
    simp only [List.nil_append, List.cons_append, List.cons.injEq] at h
    exact absurd (h.1 ▸ List.mem_cons_self z b) hb
  | z :: a, [], x, y, ha, _, h => by
    simp only [List.nil_append, List.cons_append, List.cons.injEq] at h
    exact absurd (h.1.symm ▸ List.mem_cons_self z a) ha
  | z :: a, w :: b, x, y, ha, hb, h => by
    simp only [List.cons_append, List.cons.injEq] at h
    obtain ⟨rfl, h2⟩ := h
    obtain ⟨h3, h4⟩ := eq_of_append_rparen a b x y
      (fun hc => ha (List.mem_cons_of_mem _ hc))
      (fun hc => hb (List.mem_cons_of_mem _ hc)) h2
    exact ⟨by rw [h3], h4⟩

theorem sub_after_clean :
    ∀ (b : List Char), '(' ∉ b → ∀ (pre m r : List Char),
      pre ++ '(' :: m = b ++ r → ∃ pre2, pre2 ++ '(' :: m = r
  | [], _, pre, m, r, h => ⟨pre, by simpa using h⟩
  | z :: b, hb, pre, m, r, h => by
    cases pre with
    | nil =>
      simp only [List.nil_append, List.cons_append, List.cons.injEq] at h
      exact absurd (h.1.symm ▸ List.mem_cons_self z b) hb
    | cons p pre =>
      simp only [List.cons_append, List.cons.injEq] at h
      exact sub_after_clean b (fun hc => hb (List.mem_cons_of_mem _ hc))
        pre m r h.2

theorem code_chars_no_paren {run : List Char} {u v : Char}
    (hall : ∀ x ∈ run, isCodeLower x = true) (hu : isCodeUpper u = true)
    (hv : isCodeUpper v = true) :
    '(' ∉ (run ++ '.' :: u :: v :: []) ∧ ')' ∉ (run ++ '.' :: u :: v :: []) := by
  constructor
  · intro hmem
    rcases List.mem_append.mp hmem with hmem | hmem
    · have := hall _ hmem
      simp [isCodeLower] at this
    · rcases List.mem_cons.mp hmem with he | hmem
      · cases he
      rcases List.mem_cons.mp hmem with he | hmem
      · rw [← he] at hu
        simp [isCodeUpper] at hu
      rcases List.mem_cons.mp hmem with he | hmem
      · rw [← he] at hv
        simp [isCodeUpper] at hv
      · cases hmem
  · intro hmem
    rcases List.mem_append.mp hmem with hmem | hmem
    · have := hall _ hmem
      simp [isCodeLower] at this
    · rcases List.mem_cons.mp hmem with he | hmem
      · cases he
      rcases List.mem_cons.mp hmem with he | hmem
      · rw [← he] at hu
        simp [isCodeUpper] at hu
      rcases List.mem_cons.mp hmem with he | hmem
      · rw [← he] at hv
        simp [isCodeUpper] at hv
      · cases hmem

theorem wellFormedCode_iff (c : List Char) :
    wellFormedCode c = true ↔
      ∃ run u v, run ≠ [] ∧ (∀ x ∈ run, isCodeLower x = true) ∧
        isCodeUpper u = true ∧ isCodeUpper v = true ∧
        c = run ++ '.' :: u :: v :: [] := by
  constructor
  · intro h
    simp only [wellFormedCode, Bool.and_eq_true, Bool.not_eq_true] at h
    obtain ⟨htw, hrest⟩ := h
    rcases hdw : c.dropWhile isCodeLower with _ | ⟨d, _ | ⟨u, _ | ⟨v, _ | ⟨w, r⟩⟩⟩⟩ <;>
      rw [hdw] at hrest
    · exact absurd hrest (by simp)
    · exact absurd hrest (by simp)
    · exact absurd hrest (by simp)
    · dsimp only at hrest
      simp only [Bool.and_eq_true, decide_eq_true_eq] at hrest
      obtain ⟨⟨hd, hu⟩, hv⟩ := hrest
      refine ⟨c.takeWhile isCodeLower, u, v, ?_,
        fun x hx => List.mem_takeWhile_imp hx, hu, hv, ?_⟩
      · intro he
        rw [he] at htw
        simp at htw
      · conv_lhs => rw [← List.takeWhile_append_dropWhile isCodeLower c]
        rw [hdw, hd]
    · exact absurd hrest (by simp)
  · rintro ⟨run, u, v, hrun, hall, hu, hv, rfl⟩
    have hstop := takeWhile_append_stop isCodeLower run '.' (u :: v :: [])
      hall (by decide)
    simp only [wellFormedCode, hstop.1, hstop.2, Bool.and_eq_true,
      Bool.not_eq_true]
    refine ⟨?_, by simp [hu, hv]⟩
    cases run with
    | nil => exact absurd rfl hrun
    | cons a b => simp

theorem findCodes_sound_n :
    ∀ (n : Nat) (l : List Char), l.length ≤ n → ∀ c ∈ findCodes l,
      wellFormedCode c = true ∧
        ∃ pre suf, l = pre ++ ('(' :: c ++ [')']) ++ suf
  | _, [], _, c => by simp [findCodes, findCodesAux_nil]
  | 0, x :: t, hlen, c => by simp at hlen
  | n + 1, x :: t, hlen, c => by
    intro hmem
    rw [findCodes_cons_eq] at hmem
    rcases hm : matchCode (x :: t) with _ | ⟨code, r⟩
    · rw [hm] at hmem
      have hlt : t.length ≤ n := by
        simp only [List.length_cons] at hlen
        omega
      obtain ⟨hwf, pre, suf, hdec⟩ := findCodes_sound_n n t hlt c hmem
      exact ⟨hwf, x :: pre, suf, by simp [hdec]⟩
    · rw [hm] at hmem
      obtain ⟨run, u, v, hrun, hall, hu, hv, hcode, hshape⟩ :=
        matchCode_some _ _ _ hm
      have hrlen : r.length ≤ n := by
        have hl := congrArg List.length hshape
        simp only [List.length_cons, List.length_append] at hl hlen
        omega
      rcases List.mem_cons.mp hmem with rfl | hmem
      · refine ⟨(wellFormedCode_iff c).mpr ⟨run, u, v, hrun, hall, hu, hv,
          hcode⟩, [], r, ?_⟩
        rw [hshape, hcode]
        simp
      · obtain ⟨hwf, pre, suf, hdec⟩ := findCodes_sound_n n r hrlen c hmem
        refine ⟨hwf, ('(' :: code ++ [')']) ++ pre, suf, ?_⟩
        rw [hshape, hdec, hcode]
        simp

theorem findCodes_complete_n :
    ∀ (n : Nat) (l : List Char), l.length ≤ n → ∀ c,
      wellFormedCode c = true →
      (∃ pre suf, l = pre ++ ('(' :: c ++ [')']) ++ suf) → c ∈ findCodes l
  | _, [], _, c, _, hdec => by
    obtain ⟨pre, suf, h⟩ := hdec
    have := congrArg List.length h
    simp only [List.length_nil, List.length_append, List.length_cons] at this
    omega
  | 0, x :: t, hlen, _, _, _ => by simp at hlen
  | n + 1, x :: t, hlen, c, hwf, hdec => by
    obtain ⟨pre, suf, hdc⟩ := hdec
    have hlt : t.length ≤ n := by
      simp only [List.length_cons] at hlen
      omega
    rw [findCodes_cons_eq]
    rcases hm : matchCode (x :: t) with _ | ⟨code, r⟩
    · cases pre with
      | nil =>
        exfalso
        obtain ⟨run, u, v, hrun, hall, hu, hv, hceq⟩ :=
          (wellFormedCode_iff c).mp hwf
        have hdc2 : x :: t = '(' :: run ++ '.' :: u :: v :: ')' :: suf := by
          rw [hdc, hceq]
          simp
        rw [hdc2, matchCode_of_shape run u v suf hrun hall hu hv] at hm
        cases hm
      | cons p pre2 =>
        have hx : t = pre2 ++ ('(' :: c ++ [')']) ++ suf := by
          have h2 := hdc
          simp only [List.cons_append, List.append_assoc,
            List.cons.injEq] at h2
          rw [h2.2]
          simp
        exact findCodes_complete_n n t hlt c hwf ⟨pre2, suf, hx⟩
    · obtain ⟨run, u, v, hrun, hall, hu, hv, hcode, hshape⟩ :=
        matchCode_some _ _ _ hm
      have hnp := code_chars_no_paren hall hu hv
      rw [← hcode] at hnp
      cases pre with
      | nil =>
        obtain ⟨run2, u2, v2, hrun2, hall2, hu2, hv2, hceq⟩ :=
          (wellFormedCode_iff c).mp hwf
        have hnp2 := code_chars_no_paren hall2 hu2 hv2
        rw [← hceq] at hnp2
        have h1 : c ++ ')' :: suf = code ++ ')' :: r := by
          have e1 : x :: t = '(' :: (c ++ ')' :: suf) := by
            rw [hdc]
            simp
          have e2 : x :: t = '(' :: (code ++ ')' :: r) := by
            rw [hshape, hcode]
            simp
          have e3 := e1.symm.trans e2
          simpa using e3
        obtain ⟨hc, _⟩ := eq_of_append_rparen c code suf r hnp2.2 hnp.2 h1
        rw [hc]
        exact List.mem_cons_self _ _
      | cons p pre2 =>
        have hb : '(' ∉ code ++ [')'] := by
          intro hcmem
          rcases List.mem_append.mp hcmem with hcmem | hcmem
          · exact hnp.1 hcmem
          · simp at hcmem
        have heq : pre2 ++ '(' :: (c ++ [')'] ++ suf) = (code ++ [')']) ++ r := by
          have e1 : x :: t = p :: (pre2 ++ '(' :: (c ++ [')'] ++ suf)) := by
            rw [hdc]
            simp
          have e2 : x :: t = '(' :: ((code ++ [')']) ++ r) := by
            rw [hshape, hcode]
            simp
          have e3 := e1.symm.trans e2
          simp only [List.cons.injEq] at e3
          exact e3.2
        obtain ⟨pre3, hpre3⟩ := sub_after_clean (code ++ [')']) hb pre2
          (c ++ [')'] ++ suf) r heq
        have hrlen : r.length ≤ n := by
          have hl := congrArg List.length hshape
          simp only [List.length_cons, List.length_append] at hl hlen
          omega
        have hmem := findCodes_complete_n n r hrlen c hwf
          ⟨pre3, suf, by rw [← hpre3]; simp⟩
        exact List.mem_cons_of_mem _ hmem

theorem findCodes_iff (t c : List Char) :
    c ∈ findCodes t ↔
      wellFormedCode c = true ∧
        containsSub ('(' :: c ++ [')']) t = true := by
  constructor
  · intro hmem
    obtain ⟨hwf, pre, suf, hdec⟩ :=
      findCodes_sound_n t.length t (Nat.le_refl _) c hmem
    exact ⟨hwf, (containsSub_iff _ _).mpr ⟨pre, suf, hdec⟩⟩
  · rintro ⟨hwf, hsub⟩
    obtain ⟨pre, suf, hdec⟩ := (containsSub_iff _ _).mp hsub
    exact findCodes_complete_n t.length t (Nat.le_refl _) c hwf
      ⟨pre, suf, hdec⟩

/-! ### The identifier regex -/

theorem takeDigits_some :
    ∀ (n : Nat) (l ds r : List Char), takeDigits n l = some (ds, r) →
      ds.length = n ∧ (∀ c ∈ ds, c.isDigit = true) ∧ l = ds ++ r
  | 0, l, ds, r, h => by
    simp only [takeDigits, Option.some.injEq, Prod.mk.injEq] at h
    obtain ⟨rfl, rfl⟩ := h
    simp
  | n + 1, [], ds, r, h => by simp [takeDigits] at h
  | n + 1, c :: t, ds, r, h => by
    by_cases hd : c.isDigit
    · rw [takeDigits, if_pos hd] at h
      rcases hrec : takeDigits n t with _ | ⟨ds2, r2⟩
      · rw [hrec] at h
        cases h
      · rw [hrec] at h
        simp only [Option.map_some', Option.some.injEq, Prod.mk.injEq] at h
        obtain ⟨h1, h2⟩ := h
        subst h1
        subst h2
        obtain ⟨hl, hdig, hsplit⟩ := takeDigits_some n t ds2 r2 hrec
        refine ⟨by simp [hl], ?_, by simp [hsplit]⟩
        intro x hx
        rcases List.mem_cons.mp hx with rfl | hx
        · exact hd
        · exact hdig x hx
    · rw [takeDigits, if_neg hd] at h
      cases h

theorem takeDigits_exact :
    ∀ (ds r : List Char), (∀ c ∈ ds, c.isDigit = true) →
      takeDigits ds.length (ds ++ r) = some (ds, r)
  | [], r, _ => by simp [takeDigits]
  | c :: ds, r, hall => by
    have hc : c.isDigit = true := hall c (List.mem_cons_self _ _)
    have ih := takeDigits_exact ds r
      (fun x hx => hall x (List.mem_cons_of_mem _ hx))
    simp [takeDigits, hc, ih]

theorem length_eq_four {l : List Char} (h : l.length = 4) :
    ∃ a b c d, l = [a, b, c, d] := by
  rcases l with _ | ⟨a, _ | ⟨b, _ | ⟨c, _ | ⟨d, _ | ⟨e, r⟩⟩⟩⟩⟩ <;>
    simp only [List.length_nil, List.length_cons] at h
  · exact absurd h (by omega)
  · exact absurd h (by omega)
  · exact absurd h (by omega)
  · exact absurd h (by omega)
  · exact ⟨a, b, c, d, rfl⟩
  · exact absurd h (by omega)

theorem length_eq_five {l : List Char} (h : l.length = 5) :
    ∃ a b c d e, l = [a, b, c, d, e] := by
  rcases l with _ | ⟨a, _ | ⟨b, _ | ⟨c, _ | ⟨d, _ | ⟨e, _ | ⟨f, r⟩⟩⟩⟩⟩⟩ <;>
    simp only [List.length_nil, List.length_cons] at h
  · exact absurd h (by omega)
  · exact absurd h (by omega)
  · exact absurd h (by omega)
  · exact absurd h (by omega)
  · exact absurd h (by omega)
  · exact ⟨a, b, c, d, e, rfl⟩
  · exact absurd h (by omega)

theorem isIdFormat_of_shape (d4 d5 : List Char) (h4 : d4.length = 4)
    (h5 : d5.length = 5) (hd4 : ∀ c ∈ d4, c.isDigit = true)
    (hd5 : ∀ c ∈ d5, c.isDigit = true) :
    isIdFormat (String.mk (d4 ++ '.' :: d5)) = true := by
  obtain ⟨a, b, c, d, rfl⟩ := length_eq_four h4
  obtain ⟨e1, e2, e3, e4, e5, rfl⟩ := length_eq_five h5
  have ha := hd4 a (by simp)
  have hb := hd4 b (by simp)
  have hc := hd4 c (by simp)
  have hd := hd4 d (by simp)
  have he1 := hd5 e1 (by simp)
  have he2 := hd5 e2 (by simp)
  have he3 := hd5 e3 (by simp)
  have he4 := hd5 e4 (by simp)
  have he5 := hd5 e5 (by simp)
  simp [isIdFormat, ha, hb, hc, hd, he1, he2, he3, he4, he5]

theorem tryIdAt_some (l ids : List Char) (h : tryIdAt l = some ids) :
    ∃ d4 d5 rest, ids = d4 ++ '.' :: d5 ∧ d4.length = 4 ∧ d5.length = 5 ∧
      (∀ c ∈ d4, c.isDigit = true) ∧ (∀ c ∈ d5, c.isDigit = true) ∧
      l = ("/abs/").data ++ d4 ++ '.' :: d5 ++ rest := by
  by_cases hsw : listStartsWith ("/abs/").data l = true
  · obtain ⟨t0, rfl⟩ := (listStartsWith_iff _ _).mp hsw
    have hdrop : (("/abs/").data ++ t0).drop 5 = t0 := by
      have h5 : ("/abs/").data.length = 5 := rfl
      rw [← h5, List.drop_left]
    rw [tryIdAt, if_pos hsw, hdrop] at h
    rcases h4 : takeDigits 4 t0 with _ | ⟨d4, r1'⟩
    · rw [h4] at h
      cases h
    · rw [h4] at h
      rcases r1' with _ | ⟨ch, r1⟩
      · cases h
      · dsimp only at h
        by_cases hch : ch = '.'
        · rw [if_pos hch] at h
          rcases h5 : takeDigits 5 r1 with _ | ⟨d5, rest⟩
          · rw [h5] at h
            cases h
          · rw [h5] at h
            simp only [Option.some.injEq] at h
            obtain ⟨hl4, hdig4, hsp4⟩ := takeDigits_some 4 t0 d4 (ch :: r1) h4
            obtain ⟨hl5, hdig5, hsp5⟩ := takeDigits_some 5 r1 d5 rest h5
            refine ⟨d4, d5, rest, ?_, hl4, hl5, hdig4, hdig5, ?_⟩
            · exact h.symm
            · rw [hsp4, hch, hsp5]
              simp
        · rw [if_neg hch] at h
          cases h
  · rw [tryIdAt, if_neg hsw] at h
    cases h

theorem tryIdAt_of_shape (d4 d5 ext : List Char) (h4 : d4.length = 4)
    (h5 : d5.length = 5) (hd4 : ∀ c ∈ d4, c.isDigit = true)
    (hd5 : ∀ c ∈ d5, c.isDigit = true) :
    tryIdAt (("/abs/").data ++ (d4 ++ '.' :: (d5 ++ ext))) =
      some (d4 ++ '.' :: d5) := by
  have hsw : listStartsWith ("/abs/").data
      (("/abs/").data ++ (d4 ++ '.' :: (d5 ++ ext))) = true :=
    (listStartsWith_iff _ _).mpr ⟨_, rfl⟩
  have hdrop : (("/abs/").data ++ (d4 ++ '.' :: (d5 ++ ext))).drop 5 =
      d4 ++ '.' :: (d5 ++ ext) := by
    have h5' : ("/abs/").data.length = 5 := rfl
    rw [← h5', List.drop_left]
  rw [tryIdAt, if_pos hsw, hdrop]
  have ht4 : takeDigits 4 (d4 ++ '.' :: (d5 ++ ext)) =
      some (d4, '.' :: (d5 ++ ext)) := by
    rw [← h4]
    exact takeDigits_exact d4 _ hd4
  rw [ht4]
  dsimp only
  rw [if_pos rfl]
  have ht5 : takeDigits 5 (d5 ++ ext) = some (d5, ext) := by
    rw [← h5]
    exact takeDigits_exact d5 _ hd5
  rw [ht5]

theorem extractId_of_tryIdAt {l ids : List Char} (h : tryIdAt l = some ids) :
    extractId l = some ids := by
  cases l with
  | nil =>
    rw [tryIdAt, if_neg (by decide)] at h
    cases h
  | cons c t => simp [extractId, h]

theorem extractId_some_format :
    ∀ (l ids : List Char), extractId l = some ids →
      isIdFormat (String.mk ids) = true
  | [], ids, h => by simp [extractId] at h
  | c :: t, ids, h => by
    rcases hm : tryIdAt (c :: t) with _ | ⟨ids2⟩
    · rw [extractId, hm] at h
      exact extractId_some_format t ids h
    · rw [extractId, hm] at h
      obtain ⟨d4, d5, rest, hid, h4, h5, hd4, hd5, _⟩ :=
        tryIdAt_some _ _ hm
      cases h
      rw [hid]
      exact isIdFormat_of_shape d4 d5 h4 h5 hd4 hd5

theorem firstHref_none (p : Anchor → Bool) :
    ∀ (as : List Anchor), (∀ a ∈ as, p a = false) → firstHref p as = none
  | [], _ => rfl
  | a :: t, hall => by
    have ha : p a = false := hall a (List.mem_cons_self _ _)
    simp only [firstHref, ha, Bool.false_eq_true, if_false]
    exact firstHref_none p t (fun x hx => hall x (List.mem_cons_of_mem _ hx))

theorem getAbsHref_none_of_no_match (dt : List Anchor)
    (hall : ∀ a ∈ dt, a.title ≠ some ("Abstract") ∧
      ∀ h, a.href = some h → containsSub ("/abs/").data h.data = false) :
    getAbsHref dt = none := by
  have h1 : firstHref (fun a => a.title = some ("Abstract")) dt = none := by
    refine firstHref_none _ dt ?_
    intro a ha
    simp [(hall a ha).1]
  have h2 : firstHref
      (fun a =>
        match a.href with
        | some h => containsSub ("/abs/").data h.data
        | none => false) dt = none := by
    refine firstHref_none _ dt ?_
    intro a ha
    rcases hh : a.href with _ | h
    · rfl
    · exact (hall a ha).2 h hh
  simp [getAbsHref, h1, h2, pyFalsy]

/-! ### The claims -/

/-- Claim C1: for every page, after the three sequential stable sorts,
for any two distinct emitted records `A` (at position `i`) and `B` (at
position `j`): if `A.cat_priority < B.cat_priority` then `A` precedes
`B`; among equal `cat_priority`, if `A.section_rank < B.section_rank`
then `A` precedes `B`; and among equal `cat_priority` and equal
`section_rank`, `A` precedes `B` iff `A.id >= B.id` in the string order
(identifier descending). -/
theorem claim1_sort_order (uj : String → String → String) (url : String)
    (page : List Element) (seen : List String) (i j : Nat)
    (hi : i < (parsePage uj url page seen).1.length)
    (hj : j < (parsePage uj url page seen).1.length) (hne : i ≠ j) :
    (((parsePage uj url page seen).1.get ⟨i, hi⟩).cat_priority <
        ((parsePage uj url page seen).1.get ⟨j, hj⟩).cat_priority →
      i < j) ∧
    (((parsePage uj url page seen).1.get ⟨i, hi⟩).cat_priority =
        ((parsePage uj url page seen).1.get ⟨j, hj⟩).cat_priority →
      ((parsePage uj url page seen).1.get ⟨i, hi⟩).section_rank <
        ((parsePage uj url page seen).1.get ⟨j, hj⟩).section_rank →
      i < j) ∧
    (((parsePage uj url page seen).1.get ⟨i, hi⟩).cat_priority =
        ((parsePage uj url page seen).1.get ⟨j, hj⟩).cat_priority →
      ((parsePage uj url page seen).1.get ⟨i, hi⟩).section_rank =
        ((parsePage uj url page seen).1.get ⟨j, hj⟩).section_rank →
      (i < j ↔
        pyStrLe ((parsePage uj url page seen).1.get ⟨j, hj⟩).id
          ((parsePage uj url page seen).1.get ⟨i, hi⟩).id = true)) := by
  have hnodup : ((parsePage uj url page seen).1.map Item.id).Nodup :=
    parsePage_ids_nodup uj url page seen
  have hpair : (parsePage uj url page seen).1.Pairwise itemLex := by
    rw [parsePage_def]
    exact sortItems_pairwise_lex
      (collectItems_spec uj url (sourceCatOf url)
        (CAT_PRIORITY (sourceCatOf url)) page 3 seen).1
  have hlex : ∀ (a b : Nat) (ha : a < (parsePage uj url page seen).1.length)
      (hb : b < (parsePage uj url page seen).1.length), a < b →
      itemLex ((parsePage uj url page seen).1.get ⟨a, ha⟩)
        ((parsePage uj url page seen).1.get ⟨b, hb⟩) := by
    intro a b ha hb hab
    have := List.pairwise_iff_getElem.mp hpair a b ha hb hab
    simpa [List.get_eq_getElem] using this
  have hinj : ∀ (a b : Nat) (ha : a < (parsePage uj url page seen).1.length)
      (hb : b < (parsePage uj url page seen).1.length),
      ((parsePage uj url page seen).1.get ⟨a, ha⟩).id =
        ((parsePage uj url page seen).1.get ⟨b, hb⟩).id → a = b := by
    intro a b ha hb he
    have hma : a < ((parsePage uj url page seen).1.map Item.id).length := by
      simpa using ha
    have hmb : b < ((parsePage uj url page seen).1.map Item.id).length := by
      simpa using hb
    have he2 : ((parsePage uj url page seen).1.map Item.id)[a] =
        ((parsePage uj url page seen).1.map Item.id)[b] := by
      simpa [List.getElem_map, List.get_eq_getElem] using he
    exact (List.Nodup.getElem_inj_iff hnodup).mp he2
  refine ⟨?_, ?_, ?_⟩
  · intro hlt
    rcases Nat.lt_trichotomy i j with h | h | h
    · exact h
    · subst h
      exact absurd hlt (Nat.lt_irrefl _)
    · rcases hlex j i hj hi h with h2 | ⟨h2, _⟩
      · exact absurd (Nat.lt_trans hlt h2) (Nat.lt_irrefl _)
      · rw [h2] at hlt
        exact absurd hlt (Nat.lt_irrefl _)
  · intro hceq hrlt
    rcases Nat.lt_trichotomy i j with h | h | h
    · exact h
    · subst h
      exact absurd hrlt (Nat.lt_irrefl _)
    · rcases hlex j i hj hi h with h2 | ⟨h2, h3 | ⟨h3, _⟩⟩
      · rw [hceq] at h2
        exact absurd h2 (Nat.lt_irrefl _)
      · exact absurd (Nat.lt_trans hrlt h3) (Nat.lt_irrefl _)
      · rw [h3] at hrlt
        exact absurd hrlt (Nat.lt_irrefl _)
  · intro hceq hreq
    constructor
    · intro hij
      rcases hlex i j hi hj hij with h2 | ⟨_, h3 | ⟨_, h4⟩⟩
      · rw [hceq] at h2
        exact absurd h2 (Nat.lt_irrefl _)
      · rw [hreq] at h3
        exact absurd h3 (Nat.lt_irrefl _)
      · exact h4
    · intro hle
      rcases Nat.lt_trichotomy i j with h | h | h
      · exact h
      · exact absurd h hne
      · exfalso
        rcases hlex j i hj hi h with h2 | ⟨_, h3 | ⟨_, h4⟩⟩
        · rw [hceq] at h2
          exact absurd h2 (Nat.lt_irrefl _)
        · rw [hreq] at h3
          exact absurd h3 (Nat.lt_irrefl _)
        · exact hne (hinj i j hi hj (pyStrLe_antisymm h4 hle))

/-- Witness for C1 at a concrete two-entry page: among equal
`cat_priority` and `section_rank`, position order matches identifier
descending. -/
theorem claim1_sort_order_witness :
    0 < 1 ↔
      pyStrLe ((parsePage ujId urlQA pageTwo []).1.get ⟨1, by decide⟩).id
        ((parsePage ujId urlQA pageTwo []).1.get ⟨0, by decide⟩).id = true :=
  (claim1_sort_order ujId urlQA pageTwo [] 0 1 (by decide) (by decide)
    (by decide)).2.2 (by decide) (by decide)

/-- Claim C2: with one shared seen-set created empty at the start of a
run, each identifier appears in at most one emitted record across all
pages (the concatenated output identifiers are duplicate-free); an
identifier already in the seen set is skipped with no record, no
warning and no change to the set. -/
theorem claim2_global_dedup :
    (∀ (uj : String → String → String)
        (pages : List (String × List Element)),
        ((runAll uj pages).map Item.id).Nodup) ∧
      (∀ (uj : String → String → String) (url sourceCat : String)
        (catp rank : Nat) (seen : List String) (dt : List Anchor)
        (dd : List String) (href : String) (idChars : List Char),
        getAbsHref dt = some href →
        extractId (uj url href).data = some idChars →
        String.mk idChars ∈ seen →
        processEntry uj url sourceCat catp rank seen dt dd =
          (none, [], seen)) :=
  ⟨fun uj pages => (runItems_spec uj pages []).1,
    fun uj url sourceCat catp rank seen dt dd href idChars hgh hei hmem =>
      processEntry_skip_seen uj url sourceCat catp rank seen dt dd href
        idChars hgh hei hmem⟩

/-- Witness for C2: a concrete already-seen identifier is skipped. -/
theorem claim2_witness :
    processEntry ujId urlQA ("math.QA") 0 0 ["2401.11111"]
        [absAnchor ("https://arxiv.org/abs/2401.11111")] ["(math.QA)"] =
      (none, [], ["2401.11111"]) :=
  claim2_global_dedup.2 ujId urlQA ("math.QA") 0 0 ["2401.11111"]
    [absAnchor ("https://arxiv.org/abs/2401.11111")] ["(math.QA)"]
    "https://arxiv.org/abs/2401.11111" (("2401.11111").data)
    (by decide) (by decide) (by decide)

/-- Counterexample to C3 as stated: on a page whose abstract URL
contains `/abs/` twice, the emitted `pdf` differs from the abs URL with
only the first `/abs/` replaced (Python `str.replace` replaces all
occurrences). -/
theorem claim3_counterexample :
    (parsePage ujId ("https://arxiv.org") pageReplace []).1.length = 1 ∧
      ((parsePage ujId ("https://arxiv.org") pageReplace []).1.getD 0
          item0).pdf ≠
        replaceFirstSpec
          ((parsePage ujId ("https://arxiv.org") pageReplace []).1.getD 0
            item0).abs ("/abs/") ("/pdf/") := by
  decide

/-- Claim C3 (amended): for every emitted record, `pdf` equals `abs`
with every (left-to-right, non-overlapping) occurrence of `/abs/`
replaced by `/pdf/`. -/
theorem claim3_amended (uj : String → String → String) (url : String)
    (page : List Element) (seen : List String) (it : Item)
    (hmem : it ∈ (parsePage uj url page seen).1) :
    it.pdf = pyReplace it.abs ("/abs/") ("/pdf/") :=
  (parsePage_mem uj url page seen it hmem).2.1

/-- Witness for the amended C3. -/
theorem claim3_amended_witness :
    ((parsePage ujId urlQA pageTwo []).1.getD 0 item0).pdf =
      pyReplace ((parsePage ujId urlQA pageTwo []).1.getD 0 item0).abs
        ("/abs/") ("/pdf/") :=
  claim3_amended ujId urlQA pageTwo [] _ (by decide)

/-- Counterexample to C4 as stated: the heading text
"Cross-lists for Mon, 3 Jun 24" does not contain "cross submission",
so it classifies as OTHER (3), not CROSS (1), and the following entry
carries `section_rank = 3`. -/
theorem claim4_counterexample :
    classifyHeading ["Cross-lists for Mon, 3 Jun 24"] ≠ 1 ∧
      ((collectItems ujId urlQA ("math.QA") 0 pageCross 3 []).1.map
        Item.section_rank) = [3] := by
  decide

/-- Claim C4 (amended): a heading whose visible text is
"Cross-lists for Mon, 3 Jun 24" sets the current section rank to
OTHER (3), and every list-block entry processed after it carries
`section_rank = 3` until the next heading. -/
theorem claim4_amended (uj : String → String → String)
    (pageUrl sourceCat : String) (catp r0 : Nat) (seen : List String)
    (es : List Element) (hno : ∀ e ∈ es, isHeading e = false) :
    classifyHeading ["Cross-lists for Mon, 3 Jun 24"] = 3 ∧
      ∀ it ∈ (collectItems uj pageUrl sourceCat catp
          (Element.h3 ["Cross-lists for Mon, 3 Jun 24"] :: es) r0 seen).1,
        it.section_rank = 3 := by
  have hcl : classifyHeading ["Cross-lists for Mon, 3 Jun 24"] = 3 := by
    decide
  refine ⟨hcl, ?_⟩
  rw [collectItems_h3, hcl]
  exact collectItems_rank_of_no_heading uj pageUrl sourceCat catp es 3 seen
    hno

/-- Witness for the amended C4. -/
theorem claim4_amended_witness :
    ((collectItems ujId urlQA ("math.QA") 0
        (Element.h3 ["Cross-lists for Mon, 3 Jun 24"] ::
          [Element.dl [[absAnchor ("https://arxiv.org/abs/2401.22222")]]
            [["(math.RT)"]]]) 0 []).1.getD 0 item0).section_rank = 3 :=
  (claim4_amended ujId urlQA ("math.QA") 0 0 []
    [Element.dl [[absAnchor ("https://arxiv.org/abs/2401.22222")]]
      [["(math.RT)"]]] (by decide)).2 _ (by decide)

/-- Claim C5: the category-priority mapping is the fixed dict
`math.QA = 0`, `math.RT = 1` (independent of the requested-category
list, which the mapping does not read), every other token maps to 99,
and a URL that does not match `/list/([^/]+)/new` yields the empty
token, which maps to 99. -/
theorem claim5_priority_map :
    CAT_PRIORITY ("math.QA") = 0 ∧ CAT_PRIORITY ("math.RT") = 1 ∧
      (∀ c : String, c ≠ "math.QA" → c ≠ "math.RT" →
        CAT_PRIORITY c = 99) ∧
      (∀ url : String, extractListCat url.data = none →
        sourceCatOf url = "" ∧ CAT_PRIORITY (sourceCatOf url) = 99) := by
  refine ⟨rfl, rfl, ?_, ?_⟩
  · intro c h1 h2
    simp [CAT_PRIORITY, h1, h2]
  · intro url h
    have h1 : sourceCatOf url = "" := by simp [sourceCatOf, h]
    rw [h1]
    exact ⟨rfl, by decide⟩

/-- Witness for C5. -/
theorem claim5_witness :
    CAT_PRIORITY ("cs.CV") = 99 ∧
      sourceCatOf ("https://example.org/x") = "" :=
  ⟨claim5_priority_map.2.2.1 ("cs.CV") (by decide) (by decide),
    (claim5_priority_map.2.2.2 ("https://example.org/x") (by decide)).1⟩

/-- Claim C6: every emitted record's identifier has the exact shape
four digits, a dot, five digits; an entry whose absolute URL has no
`/abs/` followed by that shape produces no record and leaves the seen
set unchanged. -/
theorem claim6_id_format :
    (∀ (uj : String → String → String) (url : String)
        (page : List Element) (seen : List String) (it : Item),
        it ∈ (parsePage uj url page seen).1 → isIdFormat it.id = true) ∧
      (∀ (uj : String → String → String) (url sourceCat : String)
        (catp rank : Nat) (seen : List String) (dt : List Anchor)
        (dd : List String) (href : String),
        getAbsHref dt = some href → extractId (uj url href).data = none →
        processEntry uj url sourceCat catp rank seen dt dd =
          (none, [], seen)) := by
  constructor
  · intro uj url page seen it hmem
    exact extractId_some_format _ _ (parsePage_mem uj url page seen it hmem).1
  · intro uj url sourceCat catp rank seen dt dd href hgh hei
    exact processEntry_no_id uj url sourceCat catp rank seen dt dd href hgh
      hei

/-- Witness for C6. -/
theorem claim6_witness :
    isIdFormat ((parsePage ujId urlQA pageTwo []).1.getD 0 item0).id =
        true ∧
      processEntry ujId urlQA ("math.QA") 0 0 []
        [absAnchor ("https://arxiv.org/abs/math.GT-9901123")] [] =
      (none, [], []) :=
  ⟨claim6_id_format.1 ujId urlQA pageTwo [] _ (by decide),
    claim6_id_format.2 ujId urlQA ("math.QA") 0 0 []
      [absAnchor ("https://arxiv.org/abs/math.GT-9901123")] []
      "https://arxiv.org/abs/math.GT-9901123" (by decide) (by decide)⟩

/-- Claim C7: on the concrete subject text the extracted set is exactly
{math.RT, math.QA}; in general a code is extracted iff it has the
regex's shape (nonempty lowercase-or-hyphen run, dot, two uppercase
letters) and occurs parenthesized in the text. -/
theorem claim7_category_extraction :
    ((findCodes
        ("Representation Theory (math.RT); Quantum Algebra (math.QA)").data).map
        String.mk).toFinset = ({"math.RT", "math.QA"} : Finset String) ∧
      (∀ t c : List Char, c ∈ findCodes t ↔
        (wellFormedCode c = true ∧
          containsSub ('(' :: c ++ [')']) t = true)) :=
  ⟨by decide, findCodes_iff⟩

/-- Witness for C7. -/
theorem claim7_witness :
    ("math.QA").data ∈ findCodes (("Quantum Algebra (math.QA)").data) :=
  (claim7_category_extraction.2 _ _).mpr ⟨by decide, by decide⟩

/-- Claim C8: an entry in which no anchor matches either abstract-link
matcher, or whose absolute URL fails the identifier pattern, produces
no record, logs nothing, and leaves the seen set unchanged (the model
is a total function, so no exception can be raised). -/
theorem claim8_malformed_entry :
    (∀ (uj : String → String → String) (url sourceCat : String)
        (catp rank : Nat) (seen : List String) (dt : List Anchor)
        (dd : List String),
        (∀ a ∈ dt, a.title ≠ some ("Abstract") ∧
          ∀ h, a.href = some h →
            containsSub ("/abs/").data h.data = false) →
        processEntry uj url sourceCat catp rank seen dt dd =
          (none, [], seen)) ∧
      (∀ (uj : String → String → String) (url sourceCat : String)
        (catp rank : Nat) (seen : List String) (dt : List Anchor)
        (dd : List String) (href : String),
        getAbsHref dt = some href → extractId (uj url href).data = none →
        processEntry uj url sourceCat catp rank seen dt dd =
          (none, [], seen)) := by
  constructor
  · intro uj url sourceCat catp rank seen dt dd hall
    exact processEntry_no_href uj url sourceCat catp rank seen dt dd
      (getAbsHref_none_of_no_match dt hall)
  · intro uj url sourceCat catp rank seen dt dd href hgh hei
    exact processEntry_no_id uj url sourceCat catp rank seen dt dd href hgh
      hei

/-- Witness for C8. -/
theorem claim8_witness :
    processEntry ujId urlQA ("math.QA") 0 0 ["x"]
        [{ title := none, href := some ("https://example.org/paper") }] [] =
      (none, [], ["x"]) :=
  claim8_malformed_entry.1 ujId urlQA ("math.QA") 0 0 ["x"]
    [{ title := none, href := some ("https://example.org/paper") }] []
    (by
      intro a ha
      rcases List.mem_cons.mp ha with rfl | h0
      · refine ⟨by decide, ?_⟩
        intro h hh
        injection hh with hh2
        rw [← hh2]
        decide
      · cases h0)

/-- Claim C9: an in-scope entry (valid link, fresh identifier) with
empty concatenated subject text is still emitted, with an empty
category set, together with exactly one warning whose text contains
the identifier and the source-category token; with non-empty subject
text no warning is emitted. -/
theorem claim9_subject_warning (uj : String → String → String)
    (url sourceCat : String) (catp rank : Nat) (seen : List String)
    (dt : List Anchor) (dd : List String) (href : String)
    (idChars : List Char) (hgh : getAbsHref dt = some href)
    (hei : extractId (uj url href).data = some idChars)
    (hfresh : String.mk idChars ∉ seen) :
    (subjectsText dd = "" →
        (processEntry uj url sourceCat catp rank seen dt dd).1.map
            Item.categories = some [] ∧
          (processEntry uj url sourceCat catp rank seen dt dd).2.1 =
            [warnMsg (String.mk idChars) sourceCat]) ∧
      (subjectsText dd ≠ "" →
        (processEntry uj url sourceCat catp rank seen dt dd).1.isSome =
            true ∧
          (processEntry uj url sourceCat catp rank seen dt dd).2.1 = []) ∧
      containsSub idChars (warnMsg (String.mk idChars) sourceCat).data =
          true ∧
      containsSub sourceCat.data
          (warnMsg (String.mk idChars) sourceCat).data = true := by
  have hpe := processEntry_pos uj url sourceCat catp rank seen dt dd href
    idChars hgh hei hfresh
  refine ⟨?_, ?_, ?_, ?_⟩
  · intro h0
    rw [hpe]
    constructor
    · rw [h0]
      simp [findCodes, findCodesAux]
    · simp [h0]
  · intro h0
    rw [hpe]
    exact ⟨rfl, by simp [h0]⟩
  · apply (containsSub_iff _ _).mpr
    refine ⟨("Could not extract categories for paper ").data,
      (", source page = ").data ++ sourceCat.data, ?_⟩
    simp [warnMsg]
  · apply (containsSub_iff _ _).mpr
    refine ⟨("Could not extract categories for paper ").data ++ idChars ++
      (", source page = ").data, [], ?_⟩
    simp [warnMsg]

/-- Witness for C9: a concrete entry with empty subject text yields
exactly the expected warning. -/
theorem claim9_witness :
    (processEntry ujId urlQA ("math.QA") 0 0 []
        [absAnchor ("https://arxiv.org/abs/2401.11111")] []).2.1 =
      [warnMsg ("2401.11111") ("math.QA")] :=
  ((claim9_subject_warning ujId urlQA ("math.QA") 0 0 []
      [absAnchor ("https://arxiv.org/abs/2401.11111")] []
      "https://arxiv.org/abs/2401.11111" (("2401.11111").data)
      (by decide) (by decide) (by decide)).1 (by decide)).2

/-- Claim C10: the identifier regex is unanchored on the right: for an
entry whose absolute URL is `/abs/` followed by four digits, a dot and
more than five digits, the entry is not skipped and the emitted
identifier is the four digits, the dot and only the first five of the
following digits.  The concrete conjunct shows this end to end on
`https://arxiv.org/abs/1234.123456`. -/
theorem claim10_id_truncation :
    extractId (("https://arxiv.org/abs/1234.123456").data) =
        some (("1234.12345").data) ∧
      (∀ (uj : String → String → String) (url sourceCat : String)
        (catp rank : Nat) (seen : List String) (dt : List Anchor)
        (dd : List String) (href : String) (d4 d5 ext : List Char),
        getAbsHref dt = some href →
        uj url href =
          String.mk (("/abs/").data ++ (d4 ++ '.' :: (d5 ++ ext))) →
        d4.length = 4 → d5.length = 5 →
        (∀ c ∈ d4, c.isDigit = true) → (∀ c ∈ d5, c.isDigit = true) →
        String.mk (d4 ++ '.' :: d5) ∉ seen →
        (processEntry uj url sourceCat catp rank seen dt dd).1.map
            Item.id =
          some (String.mk (d4 ++ '.' :: d5))) := by
  constructor
  · decide
  · intro uj url sourceCat catp rank seen dt dd href d4 d5 ext hgh habs h4
      h5 hd4 hd5 hfresh
    have hex : extractId (uj url href).data = some (d4 ++ '.' :: d5) := by
      rw [habs]
      exact extractId_of_tryIdAt (tryIdAt_of_shape d4 d5 ext h4 h5 hd4 hd5)
    rw [processEntry_pos uj url sourceCat catp rank seen dt dd href
      (d4 ++ '.' :: d5) hgh hex hfresh]
    rfl

/-- Witness for C10. -/
theorem claim10_witness :
    (processEntry (fun _ _ => "/abs/1234.123456") urlQA ("math.QA") 0 0 []
        [absAnchor ("/abs/1234.123456")] ["(math.QA)"]).1.map Item.id =
      some ("1234.12345") :=
  claim10_id_truncation.2 (fun _ _ => "/abs/1234.123456") urlQA ("math.QA")
    0 0 [] [absAnchor ("/abs/1234.123456")] ["(math.QA)"]
    "/abs/1234.123456" (("1234").data) (("12345").data) (("6").data)
    (by decide) (by decide) (by decide) (by decide) (by decide) (by decide)
    (by decide)
